import Mathlib

/-!
Shallow embedding of `hookman` (src/main.rs): a CLI tool that renders git hook
scripts from a TOML configuration and installs them into the repository's hook
directory.  Rust strings are modelled as Lean `String` (names additionally via
`List Char` for the sanitiser), the filesystem as an explicit `HookDir` state,
fallible operations return the final state together with an optional error
message, mirroring the fact that the real filesystem persists after an `Err`.
-/

namespace Hookman

/-- Accumulator for splitting a character list into maximal runs of
non-whitespace characters; the accumulator holds the current run reversed. -/
def wordsAux : List Char → List Char → List (List Char)
  | [], acc => if acc.isEmpty then [] else [acc.reverse]
  | c :: cs, acc =>
    if c.isWhitespace then
      if acc.isEmpty then wordsAux cs [] else acc.reverse :: wordsAux cs []
    else wordsAux cs (c :: acc)

/-- Splits a character list into maximal runs of non-whitespace characters,
mirroring Rust's `str::split_whitespace` (restricted to ASCII whitespace). -/
def words (l : List Char) : List (List Char) :=
  wordsAux l []

/-- Joins character lists with single underscores, mirroring
`Vec::<&str>::join("_")`. -/
def joinUnderscore : List (List Char) → List Char
  | [] => []
  | [w] => w
  | w :: x :: rest => w ++ '_' :: joinUnderscore (x :: rest)

/-- Embeds `sanitise_name` at the character-list level: lower-case every
character, then join the whitespace-separated words with underscores. -/
def sanitiseL (l : List Char) : List Char :=
  joinUnderscore (words (l.map Char.toLower))

/-- Embeds `fn sanitise_name(n: &str) -> String`:
`n.to_lowercase().split_whitespace().collect::<Vec<_>>().join("_")`. -/
def sanitise_name (s : String) : String :=
  ⟨sanitiseL s.data⟩

/-- Embeds `enum Stage { PrePush, PostCommit, PreCommit }`. -/
inductive Stage
  | PrePush
  | PostCommit
  | PreCommit
deriving DecidableEq, Repr

/-- Embeds the match in `compute_hook_path` giving each stage its file stub,
which coincides with the `Display` instance for `Stage`. -/
def stageStub : Stage → String
  | .PrePush => "pre-push"
  | .PostCommit => "post-commit"
  | .PreCommit => "pre-commit"

/-- Embeds the derived `Debug` rendering of `Stage`, used by the
`wrap_err_with` context string in `Generator::install`. -/
def stageDebug : Stage → String
  | .PrePush => "PrePush"
  | .PostCommit => "PostCommit"
  | .PreCommit => "PreCommit"

/-- Embeds `struct Hook` from the configuration model. -/
structure Hook where
  name : Option String
  command : String
  stage : Stage
  background : Bool
  pass_git_files : Bool
deriving DecidableEq, Repr

/-- Embeds `struct NameGen { i: usize }`. -/
structure NameGen where
  i : Nat
deriving DecidableEq, Repr

/-- Embeds `NameGen::generate`: returns `hook_{i}` and increments the
counter; the mutation is modelled by returning the successor state. -/
def NameGen.generate (g : NameGen) : String × NameGen :=
  ("hook_" ++ toString g.i, ⟨g.i + 1⟩)

/-- Embeds `struct HookContext`, the rendering-only view of a hook. -/
structure HookContext where
  name : String
  original_name : Option String
  command : String
  background : Bool
deriving DecidableEq, Repr

/-- Embeds `Hook::context`: resolve the name (sanitised display name, or the
next generated one) and apply the `pass_git_files` expansion. -/
def Hook.context (h : Hook) (g : NameGen) : HookContext × NameGen :=
  let (name, g') :=
    match h.name with
    | some n => (sanitise_name n, g)
    | none => g.generate
  let command :=
    if h.pass_git_files then h.command ++ " $(git ls-files)" else h.command
  (⟨name, h.name, command, h.background⟩, g')

/-- Embeds `struct Config { hooks: Vec<Hook> }`. -/
structure Config where
  hooks : List Hook
deriving DecidableEq, Repr

/-- Embeds `struct ConfigLocation { config: Config, path: PathBuf }`. -/
structure ConfigLocation where
  config : Config
  path : String
deriving DecidableEq, Repr

/-- Embeds `ConfigLocation::merge`: clone `self`, then push every hook of
`other` in order, keeping the path of `self`. -/
def ConfigLocation.merge (a b : ConfigLocation) : ConfigLocation :=
  { a with config := { hooks := a.config.hooks ++ b.config.hooks } }

/-- Embeds the config-resolution step of `main`'s `Install` arm: the local
config is already loaded; if the global config loaded, the installed config is
`global_config.merge(&config)`, otherwise the local config alone.  The result
of `ConfigLocation::global()` is passed in explicitly. -/
def resolveConfig (localCfg : ConfigLocation)
    (globalResult : Except String ConfigLocation) : ConfigLocation :=
  match globalResult with
  | .ok g => g.merge localCfg
  | .error _ => localCfg

/-- A regular file (or other entry) inside the hook directory.  `isFile`
models `entry.file_type()?.is_file()`; `removable` models whether
`std::fs::remove_file` would succeed on it; `mode` the unix permission bits. -/
structure FSFile where
  name : String
  content : String
  mode : Nat
  isFile : Bool
  removable : Bool
deriving DecidableEq, Repr

/-- The hook directory as seen by the installer: whether it exists, its
entries, and whether `read_dir` may enumerate it. -/
structure HookDir where
  dirExists : Bool
  entries : List FSFile
  readable : Bool
deriving DecidableEq, Repr

/-- The `std::io::ErrorKind` values `clear_hooks` distinguishes. -/
inductive ErrKind
  | notFound
  | permissionDenied
deriving DecidableEq, Repr

/-- Models `hook_root_path.read_dir()`: `NotFound` when the directory is
absent, another error when it cannot be enumerated, its entries otherwise. -/
def readDir (d : HookDir) : Except ErrKind (List FSFile) :=
  if !d.dirExists then .error .notFound
  else if !d.readable then .error .permissionDenied
  else .ok d.entries

/-- Embeds the removal loop of `clear_hooks`: delete each candidate in order,
stopping with the wrapped error `removing file {path}` at the first failing
deletion. -/
def clearLoop : HookDir → List FSFile → HookDir × Option String
  | d, [] => (d, none)
  | d, c :: rest =>
    if c.removable then
      clearLoop { d with entries := d.entries.eraseP (fun e => e.name == c.name) } rest
    else
      (d, some ("removing file " ++ c.name))

/-- Embeds `Generator::clear_hooks`: enumerate the hook directory, collecting
regular files as removal candidates; a `NotFound` from `read_dir` is success
with nothing to do, any other `read_dir` error is logged as a warning and also
returns `Ok(())`; then the candidates are deleted in order. -/
def clear_hooks (d : HookDir) : HookDir × Option String :=
  match readDir d with
  | .ok entries => clearLoop d (entries.filter (fun e => e.isFile))
  | .error .notFound => (d, none)
  | .error _ => (d, none)

/-- Embeds `Generator::compute_hook_path`: create the hook directory (empty)
when it is not present, and return the stage's file stub as the destination
path relative to the hook root. -/
def compute_hook_path (d : HookDir) (s : Stage) : HookDir × String :=
  (if d.dirExists then d else { dirExists := true, entries := [], readable := true },
   stageStub s)

/-- Embeds `Generator::write_file`, which opens with
`create(true).write(true).mode(0o770)` and no `truncate`: an existing file
keeps its mode and any old bytes beyond the written prefix; a fresh file is
created with mode `0o770` and exactly the written contents. -/
def write_file (d : HookDir) (path contents : String) : HookDir :=
  if d.entries.any (fun e => e.name == path) then
    { d with
      entries := d.entries.map (fun e =>
        if e.name == path then
          { e with content := contents ++ e.content.drop contents.length }
        else e) }
  else
    { d with entries := d.entries ++ [⟨path, contents, 0o770, true, true⟩] }

/-- Embeds the `hooks.iter().map(|h| h.context(&mut self.name_gen))` loop of
`generate_hook_contents`, threading the name generator left to right. -/
def contextsFrom : List Hook → NameGen → List HookContext × NameGen
  | [], g => ([], g)
  | h :: hs, g =>
    let (c, g') := h.context g
    let (cs, g'') := contextsFrom hs g'
    (c :: cs, g'')

/-- Modelled from the spec: the askama template `templates/hook.sh` named by
`#[template(path = "hook.sh")]` is not part of src/.  Following §4.4 the
rendered script runs each resolved command in order, appending `&` for
background hooks, with the resolved name recorded in a comment line. -/
def renderTemplate (ctxs : List HookContext) : String :=
  "#!/bin/sh\n" ++
    String.join (ctxs.map (fun c =>
      "# " ++ c.name ++ "\n" ++ c.command ++ (if c.background then " &" else "") ++ "\n"))

/-- Embeds `Generator::generate_hook_contents`: build the contexts (mutating
the shared name generator) and render the template over them. -/
def generate_hook_contents (hooks : List Hook) (g : NameGen) : String × NameGen :=
  let (ctxs, g') := contextsFrom hooks g
  (renderTemplate ctxs, g')

/-- Embeds `Generator::generate_hook` for one stage: under dry-run only print;
otherwise compute the destination (creating the hook directory if missing),
fail when it exists without `force`, else write the file. -/
def generate_hook (g : NameGen) (s : Stage) (hooks : List Hook) (d : HookDir)
    (dry_run force : Bool) : HookDir × NameGen × Option String :=
  let (contents, g') := generate_hook_contents hooks g
  if dry_run then
    (d, g', none)
  else
    let (d', hook_path) := compute_hook_path d s
    if d'.entries.any (fun e => e.name == hook_path) && !force then
      (d', g', some ("file " ++ hook_path ++ " exists and -f/--force not given"))
    else
      (write_file d' hook_path contents, g', none)

/-- Embeds `Generator::hooks_per_stage` restricted to one bucket: the entry
for stage `s` collects the config's hooks of that stage in declaration
order. -/
def hooks_per_stage (hooks : List Hook) (s : Stage) : List Hook :=
  hooks.filter (fun h => h.stage == s)

/-- Embeds the `for (stage, hooks) in hooks_per_stage` loop of
`Generator::install`; the `HashMap` iteration order is passed in explicitly as
`order`, and errors are wrapped with `generating hook for stage {:?}`. -/
def installStages (hooks : List Hook) (dry_run force : Bool) :
    HookDir → NameGen → List Stage → HookDir × NameGen × Option String
  | d, g, [] => (d, g, none)
  | d, g, s :: rest =>
    match generate_hook g s (hooks_per_stage hooks s) d dry_run force with
    | (d', g', some e) =>
      (d', g', some ("generating hook for stage " ++ stageDebug s ++ ": " ++ e))
    | (d', g', none) => installStages hooks dry_run force d' g' rest

/-- A legal `HashMap` iteration order over `hooks_per_stage`'s keys: each
stage appears at most once, and exactly the stages with at least one hook
appear. -/
def admissibleOrder (hooks : List Hook) (order : List Stage) : Prop :=
  order.Nodup ∧ (∀ s ∈ order, s ∈ hooks.map (fun h => h.stage)) ∧
    (∀ s ∈ hooks.map (fun h => h.stage), s ∈ order)

/-- Embeds `Generator::install` over the explicit hook-directory state: clear
existing hooks unless `no_remove`, then generate each stage's hook in the
given iteration order, threading one `NameGen` through the whole run. -/
def install (hooks : List Hook) (d : HookDir)
    (dry_run force no_remove : Bool) (order : List Stage) : HookDir × Option String :=
  let (d1, e1) := if !no_remove then clear_hooks d else (d, none)
  match e1 with
  | some e => (d1, some ("clearing existing hooks: " ++ e))
  | none =>
    let (d2, _, e2) := installStages hooks dry_run force d1 ⟨0⟩ order
    (d2, e2)

/-- Embeds the `Install` arm of `main`: load the local config (its failure
aborts the run with the filesystem untouched), resolve against the global
config result, and run the installation. -/
def mainInstall (localResult globalResult : Except String ConfigLocation)
    (d : HookDir) (dry_run force no_remove : Bool) (order : List Stage) :
    HookDir × Option String :=
  match localResult with
  | .error e => (d, some e)
  | .ok localCfg =>
    let cfg := resolveConfig localCfg globalResult
    install cfg.config.hooks d dry_run force no_remove order

/-- The hooks actually processed by an install run with stage iteration order
`order`: the concatenation of the per-stage buckets in that order. -/
def processedHooks (hooks : List Hook) (order : List Stage) : List Hook :=
  (order.map (hooks_per_stage hooks)).flatten

/-- The resolved names produced for a list of hooks processed in order,
starting from name-generator state `g`. -/
def namesOf (hooks : List Hook) (g : NameGen) : List String :=
  (contextsFrom hooks g).1.map (fun c => c.name)

/-- The number of nameless hooks in a list, i.e. how often processing the list
advances the name generator. -/
def countNone (l : List Hook) : Nat :=
  l.countP (fun h => h.name.isNone)

/-! Concrete sample data used by counterexamples and witnesses. -/

/-- A named local hook. -/
def hookL : Hook := ⟨some "Lint", "pylint", .PreCommit, false, false⟩

/-- A named global hook. -/
def hookG : Hook := ⟨some "Test", "pytest", .PreCommit, false, false⟩

/-- A nameless pre-commit hook, declared first in the sample config. -/
def hookA : Hook := ⟨none, "cmd-a", .PreCommit, false, false⟩

/-- A nameless pre-push hook, declared second in the sample config. -/
def hookB : Hook := ⟨none, "cmd-b", .PrePush, false, false⟩

/-- A local configuration location holding `hookL`. -/
def locL : ConfigLocation := ⟨⟨[hookL]⟩, ".hookman.toml"⟩

/-- A global configuration location holding `hookG`. -/
def locG : ConfigLocation := ⟨⟨[hookG]⟩, "hookman/hookman.toml"⟩

/-- A hook directory holding one stale generated script. -/
def sampleDir : HookDir := ⟨true, [⟨"pre-commit", "old", 0o755, true, true⟩], true⟩

/-- A hook directory whose listing cannot be enumerated. -/
def lockedDir : HookDir := ⟨true, [⟨"pre-commit", "old", 0o755, true, true⟩], false⟩

/-- A hook directory with a file that cannot be deleted. -/
def stuckDir : HookDir := ⟨true, [⟨"stuck", "old", 0o755, true, false⟩], true⟩

/-- A hook directory holding a ten-byte file at the pre-commit destination. -/
def staleDir : HookDir := ⟨true, [⟨"pre-commit", "0123456789", 0o644, true, true⟩], true⟩

/-- A hook whose display name is entirely whitespace. -/
def wsHook : Hook := ⟨some " \t", "cmd", .PreCommit, false, false⟩

/-! Shared helper lemmas. -/

/-- The error component of the removal loop is decided by the first candidate
whose deletion fails, independently of the directory state. -/
theorem clearLoop_snd (d : HookDir) (cs : List FSFile) :
    (clearLoop d cs).2 =
      (cs.find? (fun c => !c.removable)).map (fun c => "removing file " ++ c.name) := by
  induction cs generalizing d with
  | nil => rfl
  | cons c rest ih =>
    by_cases h : c.removable
    · simp [clearLoop, h, List.find?, ih]
    · simp [clearLoop, h, List.find?]

/-- A code point below the surrogate range round-trips through `Char.ofNat`. -/
theorem char_toNat_ofNat {n : Nat} (h : n < 55296) : (Char.ofNat n).toNat = n := by
  rw [Char.ofNat, dif_pos (Or.inl h : Nat.isValidChar n)]
  rfl

/-- Lower-casing an upper-case basic latin letter adds 32 to its code. -/
theorem toLower_of_upper {c : Char} (h : c.toNat ≥ 65 ∧ c.toNat ≤ 90) :
    c.toLower = Char.ofNat (c.toNat + 32) := by
  simp only [Char.toLower]
  rw [if_pos h]

/-- Lower-casing leaves any character outside `A`–`Z` unchanged. -/
theorem toLower_of_not_upper {c : Char} (h : ¬(c.toNat ≥ 65 ∧ c.toNat ≤ 90)) :
    c.toLower = c := by
  simp only [Char.toLower]
  rw [if_neg h]

/-- Lower-casing is idempotent character by character. -/
theorem toLower_toLower (c : Char) : c.toLower.toLower = c.toLower := by
  by_cases h : c.toNat ≥ 65 ∧ c.toNat ≤ 90
  · rw [toLower_of_upper h]
    have hv : (Char.ofNat (c.toNat + 32)).toNat = c.toNat + 32 :=
      char_toNat_ofNat (by omega)
    rw [toLower_of_not_upper (by rw [hv]; omega)]
  · rw [toLower_of_not_upper h, toLower_of_not_upper h]

/-- Lower-casing leaves whitespace characters unchanged. -/
theorem toLower_of_ws {c : Char} (h : c.isWhitespace = true) : c.toLower = c := by
  have hd : ((c = ' ' ∨ c = '\t') ∨ c = '\x0d') ∨ c = '\n' := by
    simpa [Char.isWhitespace, Bool.or_eq_true, decide_eq_true_eq] using h
  rcases hd with ((rfl | rfl) | rfl) | rfl <;> decide

/-- A member of a reversed list with one element appended is a member of that
element consed onto the list. -/
theorem mem_of_mem_reverse_append {c a : Char} {as : List Char}
    (hc : c ∈ as.reverse ++ [a]) : c ∈ a :: as := by
  rcases List.mem_append.1 hc with h | h
  · exact List.mem_cons_of_mem a (List.mem_reverse.1 h)
  · rw [List.mem_singleton.1 h]
    exact List.mem_cons_self a as

/-- Every character of a word produced by `wordsAux` is non-whitespace and
comes from the input or the accumulator. -/
theorem wordsAux_chars :
    ∀ {l acc w : List Char}, w ∈ wordsAux l acc →
      (∀ c ∈ acc, c.isWhitespace = false) →
      ∀ c ∈ w, c.isWhitespace = false ∧ (c ∈ l ∨ c ∈ acc)
  | [], acc, w, hw, hacc, c, hc => by
    cases acc with
    | nil => simp [wordsAux] at hw
    | cons a as =>
      simp [wordsAux] at hw
      subst hw
      have hc2 := mem_of_mem_reverse_append hc
      exact ⟨hacc c hc2, Or.inr hc2⟩
  | x :: xs, acc, w, hw, hacc, c, hc => by
    by_cases hx : x.isWhitespace
    · cases acc with
      | nil =>
        simp [wordsAux, hx] at hw
        have := wordsAux_chars hw (by simp) c hc
        rcases this with ⟨h1, h2 | h2⟩
        · exact ⟨h1, Or.inl (List.mem_cons_of_mem x h2)⟩
        · simp at h2
      | cons a as =>
        simp [wordsAux, hx] at hw
        rcases hw with rfl | hw
        · have hc2 := mem_of_mem_reverse_append hc
          exact ⟨hacc c hc2, Or.inr hc2⟩
        · have := wordsAux_chars hw (by simp) c hc
          rcases this with ⟨h1, h2 | h2⟩
          · exact ⟨h1, Or.inl (List.mem_cons_of_mem x h2)⟩
          · simp at h2
    · have hw' : w ∈ wordsAux xs (x :: acc) := by
        simpa [wordsAux, hx] using hw
      have hacc' : ∀ c ∈ x :: acc, c.isWhitespace = false := by
        intro c hc
        rcases List.mem_cons.1 hc with rfl | hc
        · simpa using hx
        · exact hacc c hc
      have := wordsAux_chars hw' hacc' c hc
      rcases this with ⟨h1, h2 | h2⟩
      · exact ⟨h1, Or.inl (List.mem_cons_of_mem x h2)⟩
      · rcases List.mem_cons.1 h2 with rfl | h2
        · exact ⟨h1, Or.inl (List.mem_cons_self c xs)⟩
        · exact ⟨h1, Or.inr h2⟩

/-- On whitespace-free input, `wordsAux` yields the single word formed by the
accumulator followed by the input (or nothing when both are empty). -/
theorem wordsAux_of_no_ws :
    ∀ {l : List Char}, (∀ c ∈ l, c.isWhitespace = false) → ∀ acc : List Char,
      wordsAux l acc =
        if (acc.reverse ++ l).isEmpty then [] else [acc.reverse ++ l]
  | [], _, acc => by cases acc <;> simp [wordsAux]
  | x :: xs, hl, acc => by
    have hx : x.isWhitespace = false := hl x (List.mem_cons_self x xs)
    have hxs : ∀ c ∈ xs, c.isWhitespace = false :=
      fun c hc => hl c (List.mem_cons_of_mem x hc)
    have ih := wordsAux_of_no_ws hxs (x :: acc)
    simp only [wordsAux, hx, Bool.false_eq_true, if_false]
    rw [ih]
    simp [List.append_ne_nil_of_right_ne_nil]

/-- On all-whitespace input, `wordsAux` with an empty accumulator yields no
words at all. -/
theorem wordsAux_of_all_ws :
    ∀ {l : List Char}, (∀ c ∈ l, c.isWhitespace = true) → wordsAux l [] = []
  | [], _ => rfl
  | x :: xs, hl => by
    have hx : x.isWhitespace = true := hl x (List.mem_cons_self x xs)
    have hxs : ∀ c ∈ xs, c.isWhitespace = true :=
      fun c hc => hl c (List.mem_cons_of_mem x hc)
    simp [wordsAux, hx, List.isEmpty, wordsAux_of_all_ws hxs]

/-- Every character of an underscore-join is an underscore or a character of
one of the joined words. -/
theorem mem_joinUnderscore :
    ∀ {ws : List (List Char)} {c : Char}, c ∈ joinUnderscore ws →
      c = '_' ∨ ∃ w ∈ ws, c ∈ w
  | [], c, hc => by simp [joinUnderscore] at hc
  | [w], c, hc => Or.inr ⟨w, List.mem_cons_self w [], hc⟩
  | w :: x :: rest, c, hc => by
    rw [joinUnderscore, List.mem_append] at hc
    rcases hc with hc | hc
    · exact Or.inr ⟨w, List.mem_cons_self w (x :: rest), hc⟩
    · rcases List.mem_cons.1 hc with rfl | hc
      · exact Or.inl rfl
      · rcases mem_joinUnderscore hc with h | ⟨w', hw', hcw'⟩
        · exact Or.inl h
        · exact Or.inr ⟨w', List.mem_cons_of_mem w hw', hcw'⟩

/-- Every character of a sanitised name is fixed by lower-casing and is not
whitespace. -/
theorem sanitiseL_chars {l : List Char} :
    ∀ c ∈ sanitiseL l, Char.toLower c = c ∧ c.isWhitespace = false := by
  intro c hc
  rcases mem_joinUnderscore hc with rfl | ⟨w, hw, hcw⟩
  · exact ⟨by decide, by decide⟩
  · have h2 := @wordsAux_chars (l.map Char.toLower) [] w hw (by simp) c hcw
    rcases h2 with ⟨hws, hmem | hmem⟩
    · rcases List.mem_map.1 hmem with ⟨x, _, rfl⟩
      exact ⟨toLower_toLower x, hws⟩
    · simp at hmem

/-- Sanitising at the character level is idempotent. -/
theorem sanitiseL_idem (l : List Char) : sanitiseL (sanitiseL l) = sanitiseL l := by
  have hmap : (sanitiseL l).map Char.toLower = sanitiseL l := by
    have h1 : (sanitiseL l).map Char.toLower = (sanitiseL l).map id :=
      List.map_congr_left (fun c hc => (sanitiseL_chars c hc).1)
    rw [h1, List.map_id]
  have hnws : ∀ c ∈ sanitiseL l, c.isWhitespace = false :=
    fun c hc => (sanitiseL_chars c hc).2
  show joinUnderscore (words ((sanitiseL l).map Char.toLower)) = sanitiseL l
  rw [hmap]
  rw [show words (sanitiseL l) = wordsAux (sanitiseL l) [] from rfl]
  rw [wordsAux_of_no_ws hnws []]
  by_cases h : sanitiseL l = []
  · simp [h, joinUnderscore]
  · simp only [List.reverse_nil, List.nil_append, List.isEmpty_iff, h, if_false]
    rfl

/-- On an all-whitespace name, sanitising produces the empty character list. -/
theorem sanitiseL_of_all_ws {l : List Char} (h : ∀ c ∈ l, c.isWhitespace = true) :
    sanitiseL l = [] := by
  have hmap : l.map Char.toLower = l := by
    have h1 : l.map Char.toLower = l.map id :=
      List.map_congr_left (fun c hc => toLower_of_ws (h c hc))
    rw [h1, List.map_id]
  show joinUnderscore (words (l.map Char.toLower)) = []
  rw [hmap, show words l = wordsAux l [] from rfl, wordsAux_of_all_ws h]
  rfl

/-- Processing a hook list context by context unfolds one hook at a time. -/
theorem namesOf_cons (h : Hook) (hs : List Hook) (g : NameGen) :
    namesOf (h :: hs) g = (h.context g).1.name :: namesOf hs (h.context g).2 := by
  simp [namesOf, contextsFrom]

/-- A named hook leaves the name generator untouched. -/
theorem context_gen_named {h : Hook} {n : String} (hn : h.name = some n)
    (g : NameGen) : (h.context g).2 = g ∧ (h.context g).1.name = sanitise_name n := by
  constructor <;> simp [Hook.context, hn]

/-- A nameless hook takes the current counter value as its name and advances
the generator. -/
theorem context_gen_none {h : Hook} (hn : h.name = none) (g : NameGen) :
    (h.context g).2 = ⟨g.i + 1⟩ ∧
      (h.context g).1.name = "hook_" ++ toString g.i := by
  constructor <;> simp [Hook.context, hn, NameGen.generate]

/-- Splitting the processed hook sequence at a nameless hook: the hook's
resolved name is `hook_N` where `N` is the generator's start value plus the
number of nameless hooks processed before it. -/
theorem namesOf_decomp :
    ∀ (pre : List Hook) (h : Hook) (post : List Hook) (g : NameGen),
      h.name = none →
      namesOf (pre ++ h :: post) g =
        namesOf pre g ++ ("hook_" ++ toString (g.i + countNone pre)) ::
          namesOf post ⟨g.i + countNone pre + 1⟩
  | [], h, post, g, hname => by
    rcases context_gen_none hname g with ⟨h2, h1⟩
    simp [namesOf_cons, h1, h2, countNone, namesOf, contextsFrom]
  | p :: pre, h, post, g, hname => by
    rw [List.cons_append, namesOf_cons, namesOf_cons]
    cases hp : p.name with
    | some n =>
      rcases context_gen_named hp g with ⟨h2, _⟩
      rw [h2, namesOf_decomp pre h post g hname]
      have hcount : countNone (p :: pre) = countNone pre := by
        simp [countNone, List.countP_cons, hp]
      rw [hcount]
      simp
    | none =>
      rcases context_gen_none hp g with ⟨h2, _⟩
      rw [h2, namesOf_decomp pre h post ⟨g.i + 1⟩ hname]
      have hcount : g.i + countNone (p :: pre) = g.i + 1 + countNone pre := by
        simp [countNone, List.countP_cons, hp]
        omega
      show _ = _ ++ ("hook_" ++ toString (g.i + countNone (p :: pre))) ::
        namesOf post ⟨g.i + countNone (p :: pre) + 1⟩
      rw [hcount]
      simp

/-! Claim theorems. -/

/-- C8: for every pair of ConfigLocations `a` and `b`, `merge` produces the
aggregate whose hook list is `a`'s hooks followed by `b`'s hooks and whose
path is `a`'s path; in this pure embedding neither input is modified. -/
theorem merge_appends_hooks_keeps_path (a b : ConfigLocation) :
    (a.merge b).config.hooks = a.config.hooks ++ b.config.hooks ∧
      (a.merge b).path = a.path :=
  ⟨rfl, rfl⟩

/-- C3 counterexample: with a local config holding `hookL` and a global config
holding `hookG`, the config used for installation lists the global hook first,
not the local one, refuting "local hooks first, global hooks appended". -/
theorem resolveConfig_global_hooks_first :
    (resolveConfig locL (.ok locG)).config.hooks = [hookG, hookL] ∧
      (resolveConfig locL (.ok locG)).config.hooks ≠ [hookL, hookG] := by
  decide

/-- C3 amended: when both configs are present the installed config is the
global location merged with the local one: the global file's hooks first,
then the local file's hooks, under the global file's path. -/
theorem resolveConfig_merges_global_then_local (l g : ConfigLocation) :
    (resolveConfig l (.ok g)).config.hooks = g.config.hooks ++ l.config.hooks ∧
      (resolveConfig l (.ok g)).path = g.path :=
  ⟨rfl, rfl⟩

/-- C6 amended: a local configuration-load failure is fatal and aborts with
the filesystem untouched, while a global configuration-load failure of any
kind is silently suppressed and installation proceeds with the local hooks
alone. -/
theorem config_load_failure_policy (e ge : String)
    (gr : Except String ConfigLocation) (l : ConfigLocation) (d : HookDir)
    (dry_run force no_remove : Bool) (order : List Stage) :
    mainInstall (.error e) gr d dry_run force no_remove order = (d, some e) ∧
      mainInstall (.ok l) (.error ge) d dry_run force no_remove order =
        install l.config.hooks d dry_run force no_remove order :=
  ⟨rfl, rfl⟩

/-- C6 counterexample: a malformed global configuration (its load returned the
error `parsing config file`) does not abort the run: installation proceeds
without error and mutates the hook directory, refuting "every
configuration-load failure, local or global, is fatal". -/
theorem global_config_failure_suppressed :
    (mainInstall (.ok locL) (.error "parsing config file") sampleDir
        false true false [.PreCommit]).2 = none ∧
      (mainInstall (.ok locL) (.error "parsing config file") sampleDir
        false true false [.PreCommit]).1 ≠ sampleDir := by
  decide

/-- C7 counterexample: on a hook directory whose listing cannot be enumerated,
`read_dir` fails with an error other than `NotFound`, yet `clear_hooks`
returns success, refuting "every other failure is fatal". -/
theorem clear_hooks_swallows_enumeration_failure :
    readDir lockedDir = .error .permissionDenied ∧
      clear_hooks lockedDir = (lockedDir, none) :=
  ⟨rfl, by decide⟩

/-- C7 amended: during clearing, the hook directory not existing is treated as
success without creating it, and so is any other failure to enumerate the
directory listing (only a warning is logged); a failure to delete an
individual candidate file is fatal with an error naming the failing path, and
when every candidate can be deleted no error is reported. -/
theorem clear_hooks_error_policy (d : HookDir) :
    (d.dirExists = false → clear_hooks d = (d, none)) ∧
      (d.readable = false → clear_hooks d = (d, none)) ∧
      (∀ f : FSFile, d.dirExists = true → d.readable = true →
        (d.entries.filter (fun e => e.isFile)).find? (fun c => !c.removable) = some f →
        (clear_hooks d).2 = some ("removing file " ++ f.name)) ∧
      (d.dirExists = true → d.readable = true →
        (d.entries.filter (fun e => e.isFile)).find? (fun c => !c.removable) = none →
        (clear_hooks d).2 = none) := by
  refine ⟨fun h => ?_, fun h => ?_, fun f h1 h2 h3 => ?_, fun h1 h2 h3 => ?_⟩
  · simp [clear_hooks, readDir, h]
  · by_cases hex : d.dirExists
    · simp [clear_hooks, readDir, hex, h]
    · simp [clear_hooks, readDir, hex]
  · simp [clear_hooks, readDir, h1, h2, clearLoop_snd, h3]
  · simp [clear_hooks, readDir, h1, h2, clearLoop_snd, h3]

/-- C7 witness: `clear_hooks_error_policy` applied to a missing directory and
to `stuckDir`, whose only candidate cannot be deleted. -/
theorem clear_hooks_error_policy_witness :
    clear_hooks ⟨false, [], true⟩ = (⟨false, [], true⟩, none) ∧
      (clear_hooks stuckDir).2 = some ("removing file " ++ "stuck") :=
  ⟨(clear_hooks_error_policy ⟨false, [], true⟩).1 rfl,
   (clear_hooks_error_policy stuckDir).2.2.1 ⟨"stuck", "old", 0o755, true, false⟩
     rfl rfl (by decide)⟩

/-- C1: evaluating `install` with dry-run set but no-remove unset on a hook
directory holding one file shows the file is deleted anyway — `clear_hooks`
runs regardless of the dry-run flag — contradicting the documented dry-run
contract that no filesystem mutation occurs. -/
theorem install_dry_run_deletes_files :
    install [hookL] sampleDir true false false [.PreCommit] =
        (⟨true, [], true⟩, none) ∧
      sampleDir.entries ≠ [] := by
  decide

/-- C5: evaluating `write_file` on an existing ten-byte destination shows the
missing truncate: the resulting content keeps seven stale trailing bytes after
the three written bytes, and the pre-existing mode `0o644` (owner not
executable) is kept, contradicting the documented create/truncate-and-chmod
contract. -/
theorem write_file_keeps_stale_tail :
    (write_file staleDir "pre-commit" "abc").entries.map (fun e => e.content) =
        ["abc3456789"] ∧
      (write_file staleDir "pre-commit" "abc").entries.map (fun e => e.mode) =
        [0o644] := by
  decide

/-- C2: a non-dry-run stage write whose destination already exists, without
force, fails with the `DestinationExists`-style error naming the conflicting
path and leaves the hook directory — in particular the pre-existing file's
content — unmodified. -/
theorem generate_hook_existing_dest_without_force (g : NameGen) (s : Stage)
    (hooks : List Hook) (d : HookDir) (force : Bool)
    (hex : d.dirExists = true)
    (hfile : d.entries.any (fun e => e.name == stageStub s) = true)
    (hforce : force = false) :
    generate_hook g s hooks d false force =
      (d, (generate_hook_contents hooks g).2,
        some ("file " ++ stageStub s ++ " exists and -f/--force not given")) := by
  subst hforce
  simp [generate_hook, compute_hook_path, hex, hfile]

/-- C2 witness: the overwrite-protection theorem applied to `sampleDir`, whose
pre-commit destination is occupied. -/
theorem generate_hook_existing_dest_without_force_witness :
    generate_hook ⟨0⟩ .PreCommit [hookL] sampleDir false false =
      (sampleDir, (generate_hook_contents [hookL] ⟨0⟩).2,
        some ("file " ++ stageStub .PreCommit ++ " exists and -f/--force not given")) :=
  generate_hook_existing_dest_without_force ⟨0⟩ .PreCommit [hookL] sampleDir false
    rfl (by decide) rfl

/-- C9: name sanitisation (lower-case, collapse every whitespace run to a
single underscore) is idempotent. -/
theorem sanitise_name_idempotent (s : String) :
    sanitise_name (sanitise_name s) = sanitise_name s :=
  congrArg String.mk (sanitiseL_idem s.data)

/-- C10: a hook whose display name is present but entirely whitespace (or
empty) resolves to the empty name, and the anonymous-name counter is left
untouched. -/
theorem context_whitespace_name_empty (h : Hook) (g : NameGen) (n : String)
    (hn : h.name = some n) (hws : ∀ c ∈ n.data, c.isWhitespace = true) :
    (h.context g).1.name = "" ∧ (h.context g).2 = g := by
  have hempty : sanitise_name n = "" := congrArg String.mk (sanitiseL_of_all_ws hws)
  constructor
  · show (Hook.context h g).1.name = ""
    simp [Hook.context, hn, hempty]
  · show (Hook.context h g).2 = g
    simp [Hook.context, hn]

/-- C10 witness: `context_whitespace_name_empty` applied to `wsHook`, whose
name is a space and a tab, at counter state five. -/
theorem context_whitespace_name_empty_witness :
    (wsHook.context ⟨5⟩).1.name = "" ∧ (wsHook.context ⟨5⟩).2 = ⟨5⟩ :=
  context_whitespace_name_empty wsHook ⟨5⟩ " \t" rfl (by decide)

/-- C4 counterexample: the config `[hookA, hookB]` declares the nameless
`hookA` first, yet under the legal stage iteration order pre-push before
pre-commit the run processes `hookB` first, so `hookA` — the 0th nameless hook
in declaration order — resolves to `hook_1`, not `hook_0`; under the equally
legal opposite order it resolves to `hook_0`, so repeated runs over the same
config need not assign identical names. -/
theorem nameless_names_depend_on_stage_order :
    admissibleOrder [hookA, hookB] [.PrePush, .PreCommit] ∧
      admissibleOrder [hookA, hookB] [.PreCommit, .PrePush] ∧
      processedHooks [hookA, hookB] [.PrePush, .PreCommit] = [hookB, hookA] ∧
      namesOf (processedHooks [hookA, hookB] [.PrePush, .PreCommit]) ⟨0⟩ =
        ["hook_0", "hook_1"] ∧
      processedHooks [hookA, hookB] [.PreCommit, .PrePush] = [hookA, hookB] ∧
      namesOf (processedHooks [hookA, hookB] [.PreCommit, .PrePush]) ⟨0⟩ =
        ["hook_0", "hook_1"] := by
  unfold admissibleOrder
  decide

/-- C4 amended: the run-shared counter numbers nameless hooks consecutively
from zero in processing order — the concatenation of the per-stage buckets in
the run's stage iteration order — so the N-th nameless hook in processing
order (not necessarily declaration order, and not stable across different
iteration orders) resolves to `hook_N`. -/
theorem processed_nameless_hook_names (hooks : List Hook) (order : List Stage)
    (pre post : List Hook) (h : Hook)
    (hdec : processedHooks hooks order = pre ++ h :: post)
    (hname : h.name = none) :
    namesOf (processedHooks hooks order) ⟨0⟩ =
      namesOf pre ⟨0⟩ ++ ("hook_" ++ toString (countNone pre)) ::
        namesOf post ⟨countNone pre + 1⟩ := by
  rw [hdec]
  simpa using namesOf_decomp pre h post ⟨0⟩ hname

/-- C4 witness: `processed_nameless_hook_names` applied to the sample config
with the pre-push-first iteration order, splitting at `hookA`. -/
theorem processed_nameless_hook_names_witness :
    namesOf (processedHooks [hookA, hookB] [.PrePush, .PreCommit]) ⟨0⟩ =
      namesOf [hookB] ⟨0⟩ ++ ("hook_" ++ toString (countNone [hookB])) ::
        namesOf [] ⟨countNone [hookB] + 1⟩ :=
  processed_nameless_hook_names [hookA, hookB] [.PrePush, .PreCommit]
    [hookB] [] hookA (by decide) rfl

end Hookman
